import Mathlib

/-!
Verification of the trichoptera-bibliometrics pipeline.

This file shallowly embeds the record-level logic of the repository:

* the merge/deduplication logic shared verbatim by
  `combine_scopus_years.combine_scopus_exports`,
  `scripts/process/combine_scopus_api_years.combine_scopus_api_years` and
  `scripts/fetch/fetch_scopus_api.merge_and_deduplicate`
  (pandas `drop_duplicates` on the DOI column, then a duplicate mask on a
  normalized-title column, gated on the presence of a record without DOI);
* the overlap matcher `analyze_database_coverage.find_overlaps` with its
  helpers `normalize_title` and `title_similarity`;
* the provider fetchers and the main enrichment loops of
  `scripts/fetch/fetch_abstracts.py` and `scripts/fetch/fetch_authors.py`.

A pandas cell that can be NaN is modelled as an `Option`; `none` is NaN.
pandas `drop_duplicates` treats two NaN cells as equal, which the embedding
mirrors by comparing the `Option` values themselves.
-/

namespace Tricho

/-- A row of a Scopus export as the deduplication code sees it: the DOI cell
and the Title cell, each possibly NaN (`none`). -/
structure SRec where
  doi : Option String
  title : Option String
deriving DecidableEq, Repr

/-- Key used by pass 1, `drop_duplicates(subset=['DOI'], keep='first')`.
pandas compares the raw cell values: NaN equals NaN, and comparison of
strings is case-sensitive. -/
def doiKey (r : SRec) : Option String := r.doi

/-- Python str.lower, character by character (ASCII case mapping). -/
def lowerStr (s : String) : String := String.mk (s.data.map Char.toLower)

/-- Python str.strip applied to a character list: drop leading and trailing
whitespace. -/
def trimChars (l : List Char) : List Char :=
  ((l.dropWhile Char.isWhitespace).reverse.dropWhile Char.isWhitespace).reverse

/-- Python str.strip on a string. -/
def trimStr (s : String) : String := String.mk (trimChars s.data)

/-- The Title_Normalized helper column:
`combined_df['Title'].fillna('').str.lower().str.strip()`. -/
def titleNorm (r : SRec) : String := trimStr (lowerStr (r.title.getD ""))

/-- The no-DOI test of the gate:
`combined_df['DOI'].isna() | (combined_df['DOI'] == '')`. -/
def noDoi (r : SRec) : Bool := r.doi = none || r.doi = some ""

/-- Generic first-occurrence duplicate dropping: keeps a row iff its key was
not seen on an earlier kept-or-seen row.  This is the semantics of both
`drop_duplicates(subset=[...], keep='first')` and the mask
`~df.duplicated(subset=[...], keep='first')`. -/
def dropDupBy {α κ : Type} [DecidableEq κ] (key : α → κ) : List κ → List α → List α
  | _, [] => []
  | seen, r :: rs =>
    if key r ∈ seen then dropDupBy key seen rs
    else r :: dropDupBy key (key r :: seen) rs

/-- Pass 1 of the merge scripts: `drop_duplicates(subset=['DOI'], keep='first')`. -/
def doiPassCombine (rs : List SRec) : List SRec := dropDupBy doiKey [] rs

/-- Pass 2 of the merge scripts.  It runs only when at least one remaining
record has NaN or empty DOI (`if no_doi.sum() > 0`), and then drops the rows
flagged by `df.duplicated(subset=['Title_Normalized'], keep='first')` — a mask
computed over all rows, not only the no-DOI ones. -/
def titlePassCombine (rs : List SRec) : List SRec :=
  if rs.any noDoi then dropDupBy titleNorm [] rs else rs

/-- The full deduplication of `merge_and_deduplicate` /
`combine_scopus_exports` / `combine_scopus_api_years`: DOI pass, then the
gated title pass. -/
def merge_and_deduplicate (rs : List SRec) : List SRec :=
  titlePassCombine (doiPassCombine rs)

theorem mem_dropDupBy_key_not_seen {α κ : Type} [DecidableEq κ] (key : α → κ)
    (seen : List κ) (rs : List α) {r : α} (h : r ∈ dropDupBy key seen rs) :
    key r ∉ seen := by
  induction rs generalizing seen with
  | nil => simp [dropDupBy] at h
  | cons x xs ih =>
    simp only [dropDupBy] at h
    by_cases hx : key x ∈ seen
    · simp only [hx, if_pos] at h
      exact ih seen h
    · simp only [hx, if_neg, not_false_iff, List.mem_cons] at h
      rcases h with h | h
      · subst h; exact hx
      · have := ih (key x :: seen) h
        intro hc
        exact this (List.mem_cons_of_mem _ hc)

theorem dropDupBy_sublist {α κ : Type} [DecidableEq κ] (key : α → κ)
    (seen : List κ) (rs : List α) : (dropDupBy key seen rs).Sublist rs := by
  induction rs generalizing seen with
  | nil => simp [dropDupBy]
  | cons x xs ih =>
    simp only [dropDupBy]
    by_cases hx : key x ∈ seen
    · simp only [hx, if_pos]
      exact (ih seen).cons x
    · simp only [hx, if_neg, not_false_iff]
      exact (ih (key x :: seen)).cons₂ x

theorem nodup_keys_dropDupBy {α κ : Type} [DecidableEq κ] (key : α → κ)
    (seen : List κ) (rs : List α) :
    ((dropDupBy key seen rs).map key).Nodup := by
  induction rs generalizing seen with
  | nil => simp [dropDupBy]
  | cons x xs ih =>
    simp only [dropDupBy]
    by_cases hx : key x ∈ seen
    · simp only [hx, if_pos]
      exact ih seen
    · simp only [hx, if_neg, not_false_iff, List.map_cons, List.nodup_cons]
      refine ⟨?_, ih (key x :: seen)⟩
      intro hc
      rcases List.mem_map.1 hc with ⟨r, hr, hkr⟩
      have := mem_dropDupBy_key_not_seen key _ _ hr
      exact this (hkr ▸ List.mem_cons_self _ _)

theorem dropDupBy_eq_self {α κ : Type} [DecidableEq κ] (key : α → κ)
    (seen : List κ) (rs : List α) (hnd : (rs.map key).Nodup)
    (hdisj : ∀ r ∈ rs, key r ∉ seen) : dropDupBy key seen rs = rs := by
  induction rs generalizing seen with
  | nil => simp [dropDupBy]
  | cons x xs ih =>
    simp only [List.map_cons, List.nodup_cons] at hnd
    have hx : key x ∉ seen := hdisj x (List.mem_cons_self _ _)
    simp only [dropDupBy, hx, if_neg, not_false_iff]
    congr 1
    refine ih (key x :: seen) hnd.2 ?_
    intro r hr
    simp only [List.mem_cons]
    push_neg
    constructor
    · intro hc
      exact hnd.1 (hc ▸ List.mem_map_of_mem key hr)
    · exact hdisj r (List.mem_cons_of_mem _ hr)

theorem find?_dropDupBy {α κ : Type} [DecidableEq κ] (key : α → κ)
    (seen : List κ) (rs : List α) {r : α} (h : r ∈ dropDupBy key seen rs) :
    rs.find? (fun x => decide (key x = key r)) = some r := by
  induction rs generalizing seen with
  | nil => simp [dropDupBy] at h
  | cons x xs ih =>
    simp only [dropDupBy] at h
    by_cases hx : key x ∈ seen
    · simp only [hx, if_pos] at h
      have hne : key x ≠ key r := by
        intro hc
        exact mem_dropDupBy_key_not_seen key _ _ h (hc ▸ hx)
      rw [List.find?_cons_of_neg _ (by simpa using hne)]
      exact ih seen h
    · simp only [hx, if_neg, not_false_iff, List.mem_cons] at h
      rcases h with h | h
      · subst h
        exact List.find?_cons_of_pos _ (by simp)
      · have hne : key x ≠ key r := by
          intro hc
          exact mem_dropDupBy_key_not_seen key _ _ h
            (hc ▸ List.mem_cons_self _ _)
        rw [List.find?_cons_of_neg _ (by simpa using hne)]
        exact ih (key x :: seen) h

theorem countP_le_one_of_nodup_map {α κ : Type} [DecidableEq κ] (f : α → κ)
    (l : List α) (hnd : (l.map f).Nodup) (k : κ) :
    l.countP (fun x => decide (f x = k)) ≤ 1 := by
  induction l with
  | nil => simp
  | cons x xs ih =>
    simp only [List.map_cons, List.nodup_cons] at hnd
    by_cases hx : f x = k
    · rw [List.countP_cons_of_pos _ _ (by simpa using hx)]
      have : xs.countP (fun y => decide (f y = k)) = 0 := by
        rw [List.countP_eq_zero]
        intro y hy
        simp only [decide_eq_true_eq]
        intro hc
        exact hnd.1 (hx ▸ hc ▸ List.mem_map_of_mem f hy)
      omega
    · rw [List.countP_cons_of_neg _ _ (by simpa using hx)]
      exact ih hnd.2

end Tricho

/-- Concrete input for claim C1: two records with distinct non-empty DOIs and
identical titles, followed by one record without DOI (so that the gate
`no_doi.sum() > 0` of the title pass is satisfied). -/
def c1input : List Tricho.SRec :=
  [⟨some "d1", some "alpha"⟩, ⟨some "d2", some "alpha"⟩, ⟨none, some "beta"⟩]

namespace Tricho

/-- Claim C1, evaluated at the failing input: the DOI pass removes nothing
(all three DOI cells differ), yet the full deduplication removes the second
record even though its DOI "d2" is non-empty — its normalized title equals the
first record's.  The duplicate mask of pass 2 is computed over all rows, so a
record with a non-empty DOI is removed by the title-matching pass, contrary to
the claim and to the code's own comment that titles are only checked for
papers without DOI. -/
theorem C1_title_pass_removes_doi_record :
    doiPassCombine c1input = c1input ∧
    merge_and_deduplicate c1input = [⟨some "d1", some "alpha"⟩, ⟨none, some "beta"⟩] ∧
    ∀ r ∈ merge_and_deduplicate c1input, r.doi ≠ some "d2" :=
  ⟨by decide, by decide, by decide⟩

/-- The pair of records used to refute claim C3: both DOI cells NaN, both
title cells NaN. -/
def c3pair : List SRec := [⟨none, none⟩, ⟨none, none⟩]

/-- Claim C3 counterexample: two records with missing DOI and missing title
ARE considered duplicates — already the DOI pass removes the second one,
because pandas `drop_duplicates` treats two NaN cells as equal.  The claim
said neither pass removes either of them. -/
theorem C3_counterexample :
    doiPassCombine c3pair = [⟨none, none⟩] ∧
    merge_and_deduplicate c3pair = [⟨none, none⟩] :=
  ⟨by decide, by decide⟩

/-- Claim C3 as amended: two records that both have an empty or missing DOI
and an empty or missing title are always merged — deduplicating the
two-record collection keeps only the first.  When the two DOI cells are equal
(both NaN, or both the empty string) the DOI pass removes the second record;
otherwise the title pass does, since both normalized titles are empty. -/
theorem C3_empty_identity_merged (r1 r2 : SRec)
    (h1 : noDoi r1 = true) (h2 : noDoi r2 = true)
    (t1 : titleNorm r1 = "") (t2 : titleNorm r2 = "") :
    merge_and_deduplicate [r1, r2] = [r1] := by
  have h1' : r1.doi = none ∨ r1.doi = some "" := by
    simpa [noDoi] using h1
  have h2' : r2.doi = none ∨ r2.doi = some "" := by
    simpa [noDoi] using h2
  rcases h1' with e1 | e1 <;> rcases h2' with e2 | e2 <;>
    simp [merge_and_deduplicate, doiPassCombine, titlePassCombine, dropDupBy,
      doiKey, noDoi, e1, e2, t1, t2]

/-- Witness for C3_empty_identity_merged at a concrete input: first record has
NaN DOI and NaN title, second has empty-string DOI and empty-string title. -/
theorem C3_witness :
    noDoi ⟨none, none⟩ = true ∧ noDoi ⟨some "", some ""⟩ = true ∧
    titleNorm ⟨none, none⟩ = "" ∧ titleNorm ⟨some "", some ""⟩ = "" ∧
    merge_and_deduplicate [⟨none, none⟩, ⟨some "", some ""⟩] = [⟨none, none⟩] :=
  ⟨by decide, by decide, by decide, by decide,
   C3_empty_identity_merged _ _ (by decide) (by decide) (by decide) (by decide)⟩

end Tricho

namespace Tricho

theorem merge_and_deduplicate_sublist (rs : List SRec) :
    (merge_and_deduplicate rs).Sublist rs := by
  have h1 : (doiPassCombine rs).Sublist rs := dropDupBy_sublist doiKey [] rs
  unfold merge_and_deduplicate titlePassCombine
  by_cases hg : (doiPassCombine rs).any noDoi
  · simp only [hg, if_pos]
    exact (dropDupBy_sublist titleNorm [] (doiPassCombine rs)).trans h1
  · simp only [hg, if_neg, Bool.false_eq_true, not_false_iff]
    exact h1

theorem merge_and_deduplicate_sublist_doiPass (rs : List SRec) :
    (merge_and_deduplicate rs).Sublist (doiPassCombine rs) := by
  unfold merge_and_deduplicate titlePassCombine
  by_cases hg : (doiPassCombine rs).any noDoi
  · simp only [hg, if_pos]
    exact dropDupBy_sublist titleNorm [] (doiPassCombine rs)
  · simp only [hg, if_neg, Bool.false_eq_true, not_false_iff]
    exact List.Sublist.refl _

theorem nodup_doiKeys_merge (rs : List SRec) :
    ((merge_and_deduplicate rs).map doiKey).Nodup :=
  List.Nodup.sublist ((merge_and_deduplicate_sublist_doiPass rs).map doiKey)
    (nodup_keys_dropDupBy doiKey [] rs)

/-- Claim C4: deduplication is idempotent.  Running the merge logic a second
time on its own output removes nothing: the DOI pass of the second run
returns its input unchanged, and so does the full two-pass deduplication. -/
theorem C4_dedup_idempotent (rs : List SRec) :
    doiPassCombine (merge_and_deduplicate rs) = merge_and_deduplicate rs ∧
    merge_and_deduplicate (merge_and_deduplicate rs) = merge_and_deduplicate rs := by
  have hdoi : doiPassCombine (merge_and_deduplicate rs) = merge_and_deduplicate rs :=
    dropDupBy_eq_self doiKey [] _ (nodup_doiKeys_merge rs) (by simp)
  refine ⟨hdoi, ?_⟩
  unfold merge_and_deduplicate
  rw [show doiPassCombine (titlePassCombine (doiPassCombine rs)) =
        titlePassCombine (doiPassCombine rs) from hdoi]
  unfold titlePassCombine
  by_cases hg : (doiPassCombine rs).any noDoi
  · simp only [hg, if_pos]
    have hnt : ((dropDupBy titleNorm [] (doiPassCombine rs)).map titleNorm).Nodup :=
      nodup_keys_dropDupBy titleNorm [] (doiPassCombine rs)
    by_cases hg2 : (dropDupBy titleNorm [] (doiPassCombine rs)).any noDoi
    · simp only [hg2, if_pos]
      exact dropDupBy_eq_self titleNorm [] _ hnt (by simp)
    · simp only [hg2, if_neg, Bool.false_eq_true, not_false_iff]
  · simp only [hg, if_neg, Bool.false_eq_true, not_false_iff]

/-- The pair of records used to refute claim C2: DOIs equal after
lower-casing but differing in case. -/
def c2pair : List SRec := [⟨some "10.1/X", some "a"⟩, ⟨some "10.1/x", some "b"⟩]

/-- Claim C2 counterexample: two records whose non-empty DOIs are equal after
case normalization but differ in raw case BOTH survive deduplication —
`drop_duplicates(subset=['DOI'])` compares the raw cell values
case-sensitively, and no lower-casing is applied anywhere in the merge
scripts.  The claim said at most one of such a pair survives. -/
theorem C2_counterexample :
    merge_and_deduplicate c2pair = c2pair ∧
    c2pair.map (fun r => r.doi.map lowerStr) = [some "10.1/x", some "10.1/x"] ∧
    (merge_and_deduplicate c2pair).countP
      (fun r => decide (r.doi.map lowerStr = some "10.1/x")) = 2 :=
  ⟨by decide, by decide, by decide⟩

/-- Claim C2 as amended: for every pair of records whose DOI cells are
non-empty and EXACTLY equal as strings (case-sensitively — the comparison the
code actually performs), at most one of the pair survives deduplication, and
any survivor carrying that DOI is the record appearing first in the
concatenated input order. -/
theorem C2_doi_priority_exact (rs : List SRec) (d : String) (hd : d ≠ "") :
    (merge_and_deduplicate rs).countP (fun r => decide (r.doi = some d)) ≤ 1 ∧
    ∀ r ∈ merge_and_deduplicate rs, r.doi = some d →
      rs.find? (fun x => decide (x.doi = some d)) = some r := by
  constructor
  · calc (merge_and_deduplicate rs).countP (fun r => decide (r.doi = some d))
        ≤ (doiPassCombine rs).countP (fun r => decide (r.doi = some d)) :=
          List.Sublist.countP_le _ (merge_and_deduplicate_sublist_doiPass rs)
      _ ≤ 1 := countP_le_one_of_nodup_map doiKey _
            (nodup_keys_dropDupBy doiKey [] rs) (some d)
  · intro r hr hrd
    have hmem : r ∈ doiPassCombine rs :=
      (merge_and_deduplicate_sublist_doiPass rs).subset hr
    have := find?_dropDupBy doiKey [] rs hmem
    rw [show doiKey r = some d from hrd] at this
    exact this

/-- Witness for C2_doi_priority_exact at a concrete input. -/
theorem C2_witness :
    ("10.1/x" ≠ "") ∧
    (merge_and_deduplicate [(⟨some "10.1/x", some "t"⟩ : SRec)]).countP
      (fun r => decide (r.doi = some "10.1/x")) ≤ 1 ∧
    [(⟨some "10.1/x", some "t"⟩ : SRec)].find?
      (fun x => decide (x.doi = some "10.1/x")) = some ⟨some "10.1/x", some "t"⟩ :=
  ⟨by decide,
   (C2_doi_priority_exact [⟨some "10.1/x", some "t"⟩] "10.1/x" (by decide)).1,
   (C2_doi_priority_exact [⟨some "10.1/x", some "t"⟩] "10.1/x" (by decide)).2
     ⟨some "10.1/x", some "t"⟩ (by decide) rfl⟩

end Tricho

namespace Tricho

/-- Outcome of one HTTP request, as the fetchers see it: either a response
with a status code and an already-parsed body, or a raised
Timeout/RequestException (the only exceptions the fetchers catch). -/
inductive HttpOut (β : Type) where
  | ok (status : Nat) (body : β)
  | err
deriving DecidableEq, Repr

/-- Python truthiness of an optional string: None and the empty string are
falsy, any other string is the value itself. -/
def truthyStr : Option String → Option String
  | none => none
  | some s => if s = "" then none else some s

/-- Insert into a Python dict modelled as an insertion-ordered association
list: an existing key keeps its position and gets the new value, a new key is
appended at the end. -/
def dictInsert {κ ν : Type} [DecidableEq κ] : List (κ × ν) → κ → ν → List (κ × ν)
  | [], p, w => [(p, w)]
  | (q, v) :: d, p, w =>
    if q = p then (q, w) :: d else (q, v) :: dictInsert d p w

/-- Lookup in the association-list dict. -/
def dictLookup {κ ν : Type} [DecidableEq κ] : List (κ × ν) → κ → Option ν
  | [], _ => none
  | (q, v) :: d, p => if q = p then some v else dictLookup d p

/-- Inner loop of the OpenAlex abstract reconstruction:
`for pos in positions: words[pos] = word`. -/
def insPos (w : String) : List (Nat × String) → List Nat → List (Nat × String)
  | d, [] => d
  | d, p :: ps => insPos w (dictInsert d p w) ps

/-- Outer loop of the OpenAlex abstract reconstruction:
`for word, positions in inverted.items(): ...`. -/
def buildW : List (Nat × String) → List (String × List Nat) → List (Nat × String)
  | d, [] => d
  | d, (w, ps) :: rest => buildW (insPos w d ps) rest

/-- The words dict built by `get_abstract_openalex` from the inverted index. -/
def buildWords (idx : List (String × List Nat)) : List (Nat × String) :=
  buildW [] idx

/-- The join step of `get_abstract_openalex`:
`" ".join(words[i] for i in sorted(words))`. -/
def joinWords (idx : List (String × List Nat)) : String :=
  String.intercalate " "
    ((List.insertionSort (· ≤ ·) ((buildWords idx).map Prod.fst)).map
      (fun p => (dictLookup (buildWords idx) p).getD ""))

/-- Body-processing of `get_abstract_openalex` on a 200 response:
`inverted = data.get("abstract_inverted_index"); if not inverted: return
None`, then dict construction and position-sorted join.  `none` models an
absent key, `some []` an empty inverted index (both falsy in Python). -/
def reconstructOA : Option (List (String × List Nat)) → Option String
  | none => none
  | some idx => if idx = [] then none else some (joinWords idx)

/-- Retry loop of `get_abstract_openalex` (scripts/fetch/fetch_abstracts.py):
`for attempt in range(3)`.  A 200 response returns immediately (the
reconstructed text, or None when the inverted index is falsy); any other
status falls through the loop body and is retried; a Timeout or
RequestException sleeps and retries unless this was the last attempt.  The
second component counts HTTP requests actually made. -/
def oaGo (oracle : Nat → HttpOut (Option (List (String × List Nat)))) :
    Nat → Nat → Option String × Nat
  | attempt, 0 => (none, attempt)
  | attempt, fuel + 1 =>
    match oracle attempt with
    | .ok 200 body => (reconstructOA body, attempt + 1)
    | .ok _ _ => oaGo oracle (attempt + 1) fuel
    | .err => if fuel = 0 then (none, attempt + 1) else oaGo oracle (attempt + 1) fuel

/-- `get_abstract_openalex` with `max_retries=3`, abstracted over the network
(the oracle gives the outcome of the attempt-th request). -/
def get_abstract_openalex
    (oracle : Nat → HttpOut (Option (List (String × List Nat)))) :
    Option String × Nat :=
  oaGo oracle 0 3

/-- Retry loop of `get_abstract_semantic`: a 200 response whose abstract
field is truthy returns it; a 200 response with a missing or empty abstract
falls through and is retried, like any non-200 status; exceptions retry with
backoff until the attempt cap. -/
def ssGo (oracle : Nat → HttpOut (Option String)) :
    Nat → Nat → Option String × Nat
  | attempt, 0 => (none, attempt)
  | attempt, fuel + 1 =>
    match oracle attempt with
    | .ok 200 body =>
      match truthyStr body with
      | some s => (some s, attempt + 1)
      | none => ssGo oracle (attempt + 1) fuel
    | .ok _ _ => ssGo oracle (attempt + 1) fuel
    | .err => if fuel = 0 then (none, attempt + 1) else ssGo oracle (attempt + 1) fuel

/-- `get_abstract_semantic` with `max_retries=3`. -/
def get_abstract_semantic (oracle : Nat → HttpOut (Option String)) :
    Option String × Nat :=
  ssGo oracle 0 3

/-- The CrossRef abstract field: either a plain string or a list of text
fragments. -/
inductive CRAbs where
  | str (s : String)
  | lst (l : List String)
deriving DecidableEq, Repr

/-- Truthiness and normalization of the CrossRef payload: the outer Option is
the presence of the "message" key, the inner one the "abstract" field.  A
truthy string is returned as is; a truthy (non-empty) list is joined with
single spaces; everything else is falsy and falls through. -/
def truthyCR : Option (Option CRAbs) → Option String
  | some (some (.str s)) => if s = "" then none else some s
  | some (some (.lst l)) => if l = [] then none else some (String.intercalate " " l)
  | _ => none

/-- Retry loop of `get_abstract_crossref`: a 200 response with a truthy
abstract returns it, a 200 response without one falls through and is
retried; a 404 returns None IMMEDIATELY (`elif r.status_code == 404: return
None`); other statuses fall through; exceptions retry with backoff until the
attempt cap. -/
def crGo (oracle : Nat → HttpOut (Option (Option CRAbs))) :
    Nat → Nat → Option String × Nat
  | attempt, 0 => (none, attempt)
  | attempt, fuel + 1 =>
    match oracle attempt with
    | .ok 200 body =>
      match truthyCR body with
      | some s => (some s, attempt + 1)
      | none => crGo oracle (attempt + 1) fuel
    | .ok 404 _ => (none, attempt + 1)
    | .ok _ _ => crGo oracle (attempt + 1) fuel
    | .err => if fuel = 0 then (none, attempt + 1) else crGo oracle (attempt + 1) fuel

/-- `get_abstract_crossref` with `max_retries=3`. -/
def get_abstract_crossref (oracle : Nat → HttpOut (Option (Option CRAbs))) :
    Option String × Nat :=
  crGo oracle 0 3

end Tricho

namespace Tricho

/-- Claim C7 counterexample: an OpenAlex request that answers HTTP 404 on
every attempt does NOT make the fetcher return after the first request —
`get_abstract_openalex` has no 404 branch, so the status falls through the
loop body and the request is retried until the attempt cap (3 requests).
The same holds for `get_abstract_semantic`.  The claim asserted an immediate
no-retry return on 404 for every provider fetcher. -/
theorem C7_counterexample :
    get_abstract_openalex (fun _ => .ok 404 none) = (none, 3) ∧
    (get_abstract_openalex (fun _ => .ok 404 none)).2 ≠ 1 ∧
    get_abstract_semantic (fun _ => .ok 404 none) = (none, 3) :=
  ⟨rfl, by decide, rfl⟩

/-- Claim C7 as amended: only the CrossRef fetcher short-circuits on HTTP 404
(returning no value after exactly one request, without retry); the OpenAlex
and Semantic Scholar fetchers treat a 404 like any other non-200 status and
retry it until the cap of 3 attempts before returning no value; transient
failures (Timeout / RequestException) are retried with backoff up to the cap
of 3 attempts in all three fetchers, which then return no value. -/
theorem C7_retry_behavior :
    (∀ (oc : Nat → HttpOut (Option (Option CRAbs))) (b : Option (Option CRAbs)),
        oc 0 = .ok 404 b → get_abstract_crossref oc = (none, 1)) ∧
    (∀ (oa : Nat → HttpOut (Option (List (String × List Nat)))),
        (∀ i, i < 3 → ∃ b, oa i = .ok 404 b) →
        get_abstract_openalex oa = (none, 3)) ∧
    (∀ (osm : Nat → HttpOut (Option String)),
        (∀ i, i < 3 → ∃ b, osm i = .ok 404 b) →
        get_abstract_semantic osm = (none, 3)) ∧
    (∀ (oa : Nat → HttpOut (Option (List (String × List Nat)))),
        (∀ i, i < 3 → oa i = .err) → get_abstract_openalex oa = (none, 3)) ∧
    (∀ (osm : Nat → HttpOut (Option String)),
        (∀ i, i < 3 → osm i = .err) → get_abstract_semantic osm = (none, 3)) ∧
    (∀ (oc : Nat → HttpOut (Option (Option CRAbs))),
        (∀ i, i < 3 → oc i = .err) → get_abstract_crossref oc = (none, 3)) := by
  refine ⟨?_, ?_, ?_, ?_, ?_, ?_⟩
  · intro oc b h
    simp [get_abstract_crossref, crGo, h]
  · intro oa h
    obtain ⟨b0, h0⟩ := h 0 (by omega)
    obtain ⟨b1, h1⟩ := h 1 (by omega)
    obtain ⟨b2, h2⟩ := h 2 (by omega)
    simp [get_abstract_openalex, oaGo, h0, h1, h2]
  · intro osm h
    obtain ⟨b0, h0⟩ := h 0 (by omega)
    obtain ⟨b1, h1⟩ := h 1 (by omega)
    obtain ⟨b2, h2⟩ := h 2 (by omega)
    simp [get_abstract_semantic, ssGo, h0, h1, h2]
  · intro oa h
    simp [get_abstract_openalex, oaGo, h 0 (by omega), h 1 (by omega), h 2 (by omega)]
  · intro osm h
    simp [get_abstract_semantic, ssGo, h 0 (by omega), h 1 (by omega), h 2 (by omega)]
  · intro oc h
    simp [get_abstract_crossref, crGo, h 0 (by omega), h 1 (by omega), h 2 (by omega)]

/-- Witness for C7_retry_behavior: each conjunct instantiated at a concrete
oracle. -/
theorem C7_witness :
    get_abstract_crossref (fun _ => .ok 404 none) = (none, 1) ∧
    get_abstract_openalex (fun _ => .ok 404 none) = (none, 3) ∧
    get_abstract_semantic (fun _ => .ok 404 none) = (none, 3) ∧
    get_abstract_openalex (fun _ => .err) = (none, 3) ∧
    get_abstract_semantic (fun _ => .err) = (none, 3) ∧
    get_abstract_crossref (fun _ => .err) = (none, 3) :=
  ⟨C7_retry_behavior.1 _ none rfl,
   C7_retry_behavior.2.1 _ (fun _ _ => ⟨none, rfl⟩),
   C7_retry_behavior.2.2.1 _ (fun _ _ => ⟨none, rfl⟩),
   C7_retry_behavior.2.2.2.1 _ (fun _ _ => rfl),
   C7_retry_behavior.2.2.2.2.1 _ (fun _ _ => rfl),
   C7_retry_behavior.2.2.2.2.2 _ (fun _ _ => rfl)⟩

end Tricho

namespace Tricho

/-- All (position, word) pairs of an inverted index, in iteration order. -/
def pairsOf : List (String × List Nat) → List (Nat × String)
  | [] => []
  | (w, ps) :: rest => ps.map (fun p => (p, w)) ++ pairsOf rest

/-- Comparison of (position, word) pairs by position. -/
def posLe (a b : Nat × String) : Prop := a.1 ≤ b.1

instance : DecidableRel posLe := fun a b => Nat.decLe a.1 b.1

instance : IsTotal (Nat × String) posLe := ⟨fun a b => Nat.le_total a.1 b.1⟩

instance : IsTrans (Nat × String) posLe := ⟨fun _ _ _ h1 h2 => Nat.le_trans h1 h2⟩

/-- Specification-side reconstruction: flatten the inverted index into
(position, word) pairs, sort ascending by position, join the words with
single spaces. -/
def specJoin (idx : List (String × List Nat)) : String :=
  String.intercalate " " ((List.insertionSort posLe (pairsOf idx)).map Prod.snd)

theorem dictInsert_of_not_mem (d : List (Nat × String)) (p : Nat) (w : String)
    (h : p ∉ d.map Prod.fst) : dictInsert d p w = d ++ [(p, w)] := by
  induction d with
  | nil => rfl
  | cons qv d ih =>
    obtain ⟨q, v⟩ := qv
    simp only [List.map_cons, List.mem_cons] at h
    push_neg at h
    simp only [dictInsert, if_neg (Ne.symm h.1), List.cons_append]
    rw [ih h.2]

theorem insPos_of_fresh (w : String) (ps : List Nat) :
    ∀ d : List (Nat × String), (∀ p ∈ ps, p ∉ d.map Prod.fst) → ps.Nodup →
    insPos w d ps = d ++ ps.map (fun p => (p, w)) := by
  induction ps with
  | nil => intro d _ _; simp [insPos]
  | cons p ps ih =>
    intro d hfresh hnd
    simp only [List.nodup_cons] at hnd
    simp only [insPos]
    rw [dictInsert_of_not_mem d p w (hfresh p (List.mem_cons_self _ _))]
    rw [ih (d ++ [(p, w)]) ?_ hnd.2]
    · simp
    · intro q hq
      simp only [List.map_append, List.mem_append, List.map_cons, List.map_nil,
        List.mem_singleton]
      push_neg
      exact ⟨hfresh q (List.mem_cons_of_mem _ hq),
        fun hc => hnd.1 (hc ▸ hq)⟩

theorem map_fst_pairsOf (w : String) (ps : List Nat) (rest : List (String × List Nat)) :
    (pairsOf ((w, ps) :: rest)).map Prod.fst = ps ++ (pairsOf rest).map Prod.fst := by
  simp only [pairsOf, List.map_append, List.map_map]
  have hcomp : (Prod.fst ∘ fun p : Nat => (p, w)) = id := rfl
  rw [hcomp, List.map_id]

theorem buildW_eq (idx : List (String × List Nat)) :
    ∀ d : List (Nat × String),
    (d.map Prod.fst ++ (pairsOf idx).map Prod.fst).Nodup →
    buildW d idx = d ++ pairsOf idx := by
  induction idx with
  | nil => intro d _; simp [buildW, pairsOf]
  | cons wps rest ih =>
    intro d hnd
    obtain ⟨w, ps⟩ := wps
    rw [map_fst_pairsOf] at hnd
    simp only [buildW]
    have hps : (∀ p ∈ ps, p ∉ d.map Prod.fst) ∧ ps.Nodup := by
      rw [List.nodup_append] at hnd
      refine ⟨fun p hp hc => ?_, ?_⟩
      · exact hnd.2.2 hc (List.mem_append_left _ hp)
      · rcases List.nodup_append.1 hnd.2.1 with ⟨h1, _, _⟩
        exact h1
    rw [insPos_of_fresh w ps d hps.1 hps.2]
    rw [ih (d ++ ps.map fun p => (p, w)) ?_]
    · simp [pairsOf]
    · simp only [List.map_append, List.map_map]
      have hcomp : (Prod.fst ∘ fun p : Nat => (p, w)) = id := rfl
      rw [hcomp, List.map_id, List.append_assoc]
      exact hnd

theorem buildWords_eq (idx : List (String × List Nat))
    (h : ((pairsOf idx).map Prod.fst).Nodup) : buildWords idx = pairsOf idx := by
  have := buildW_eq idx [] (by simpa using h)
  simpa [buildWords] using this

theorem dictLookup_mem {κ ν : Type} [DecidableEq κ]
    (l : List (κ × ν)) (hnd : (l.map Prod.fst).Nodup)
    (pr : κ × ν) (hm : pr ∈ l) : dictLookup l pr.1 = some pr.2 := by
  induction l with
  | nil => simp at hm
  | cons qv l ih =>
    obtain ⟨q, v⟩ := qv
    simp only [List.map_cons, List.nodup_cons] at hnd
    simp only [List.mem_cons] at hm
    rcases hm with hm | hm
    · subst hm
      simp [dictLookup]
    · have hq : q ≠ pr.1 := by
        intro hc
        exact hnd.1 (hc ▸ List.mem_map_of_mem Prod.fst hm)
      simp only [dictLookup, if_neg hq]
      exact ih hnd.2 hm

theorem joinWords_eq_specJoin (idx : List (String × List Nat))
    (h : ((pairsOf idx).map Prod.fst).Nodup) : joinWords idx = specJoin idx := by
  rw [joinWords, specJoin, buildWords_eq idx h]
  have hkeys : List.insertionSort (· ≤ ·) ((pairsOf idx).map Prod.fst) =
      (List.insertionSort posLe (pairsOf idx)).map Prod.fst := by
    refine List.eq_of_perm_of_sorted (r := (fun a b => a ≤ b : Nat → Nat → Prop)) ?_ ?_ ?_
    · exact (List.perm_insertionSort _ _).trans
        (((List.perm_insertionSort posLe (pairsOf idx)).map Prod.fst).symm)
    · exact List.sorted_insertionSort _ _
    · exact List.Pairwise.map Prod.fst (fun a b hab => hab)
        (List.sorted_insertionSort posLe (pairsOf idx))
  rw [hkeys, List.map_map]
  refine congrArg _ (List.map_congr_left ?_)
  intro pr hpr
  have hmem : pr ∈ pairsOf idx := by
    have := (List.perm_insertionSort posLe (pairsOf idx)).mem_iff.1 hpr
    exact this
  simp only [Function.comp_apply]
  rw [dictLookup_mem (pairsOf idx) h pr hmem]
  rfl

/-- Claim C9: inverted-abstract reconstruction.  For an inverted index whose
recorded positions are pairwise distinct, the abstract reconstructed by
`get_abstract_openalex` is exactly the words placed at their recorded
positions, sorted ascending by position, joined with single spaces; an absent
(`None`) or empty inverted index yields no abstract. -/
theorem C9_inverted_reconstruction (idx : List (String × List Nat))
    (h : ((pairsOf idx).map Prod.fst).Nodup) :
    reconstructOA none = none ∧
    reconstructOA (some idx) = (if idx = [] then none else some (specJoin idx)) := by
  refine ⟨rfl, ?_⟩
  by_cases he : idx = []
  · simp [reconstructOA, he]
  · simp only [reconstructOA, he, if_neg, not_false_iff]
    rw [joinWords_eq_specJoin idx h]

/-- Witness for C9_inverted_reconstruction at a concrete inverted index with
a word occurring at two positions. -/
theorem C9_witness :
    ((pairsOf [("hello", [0, 2]), ("world", [1])]).map Prod.fst).Nodup ∧
    reconstructOA (some [("hello", [0, 2]), ("world", [1])]) =
      (if ([("hello", [0, 2]), ("world", [1])] : List (String × List Nat)) = []
       then none else some (specJoin [("hello", [0, 2]), ("world", [1])])) ∧
    reconstructOA (some [("hello", [0, 2]), ("world", [1])]) = some "hello world hello" :=
  ⟨by decide, (C9_inverted_reconstruction _ (by decide)).2, by decide⟩

end Tricho

namespace Tricho

/-- A row of the abstracts enrichment loop: the DOI cell and the Abstract
cell, each possibly NaN. -/
structure ERec where
  doi : Option String
  abstract : Option String
deriving DecidableEq, Repr

/-- Skip test of the abstracts loop:
`isinstance(row.get("Abstract"), str) and row["Abstract"].strip()` — a NaN
cell is not a str, and a string cell must be non-blank after stripping. -/
def skipAbs (r : ERec) : Bool :=
  match r.abstract with
  | some s => decide (trimStr s ≠ "")
  | none => false

/-- The per-source success counters and the failure counter of
fetch_abstracts.py (already_had is set at load time, not in the loop). -/
structure AbsStats where
  openalex : Nat
  semantic : Nat
  crossref : Nat
  pubmed : Nat
  failed : Nat
deriving DecidableEq, Repr

/-- Processing of one non-skipped record by the main enrichment loop of
fetch_abstracts.py: try OpenAlex, then Semantic Scholar, then CrossRef, then
PubMed (each provider modelled by the Option-String result of its fetcher on
this record's DOI); the first truthy value is written to the Abstract cell
and credited to that provider's counter; if all four are falsy the failed
counter is incremented and the row is left unchanged.  The third component
counts provider invocations. -/
def enrichAbsOne (p1 p2 p3 p4 : Option String → Option String) (r : ERec)
    (st : AbsStats) : ERec × AbsStats × Nat :=
  if skipAbs r then (r, st, 0)
  else
    match truthyStr (p1 r.doi) with
    | some v => ({r with abstract := some v}, {st with openalex := st.openalex + 1}, 1)
    | none =>
      match truthyStr (p2 r.doi) with
      | some v => ({r with abstract := some v}, {st with semantic := st.semantic + 1}, 2)
      | none =>
        match truthyStr (p3 r.doi) with
        | some v => ({r with abstract := some v}, {st with crossref := st.crossref + 1}, 3)
        | none =>
          match truthyStr (p4 r.doi) with
          | some v => ({r with abstract := some v}, {st with pubmed := st.pubmed + 1}, 4)
          | none => (r, {st with failed := st.failed + 1}, 4)

/-- The main enrichment loop of fetch_abstracts.py over the whole collection,
threading the statistics and accumulating the provider-invocation count. -/
def enrichAbstracts (p1 p2 p3 p4 : Option String → Option String) :
    List ERec → AbsStats → List ERec × AbsStats × Nat
  | [], st => ([], st, 0)
  | r :: rs, st =>
    let one := enrichAbsOne p1 p2 p3 p4 r st
    let rest := enrichAbstracts p1 p2 p3 p4 rs one.2.1
    (one.1 :: rest.1, rest.2.1, one.2.2 + rest.2.2)

/-- Index and value of the first truthy element of a list of provider
results (specification-side description of the cascade). -/
def firstTruthyIdx : List (Option String) → Option (Nat × String)
  | [] => none
  | a :: rest =>
    match truthyStr a with
    | some v => some (0, v)
    | none => (firstTruthyIdx rest).map (fun pr => (pr.1 + 1, pr.2))

/-- Increment exactly the counter of the given provider position
(0 = OpenAlex, 1 = Semantic Scholar, 2 = CrossRef, 3 = PubMed). -/
def bumpStat (st : AbsStats) : Nat → AbsStats
  | 0 => {st with openalex := st.openalex + 1}
  | 1 => {st with semantic := st.semantic + 1}
  | 2 => {st with crossref := st.crossref + 1}
  | 3 => {st with pubmed := st.pubmed + 1}
  | _ => st

/-- Claim C8: cascade order and outcome attribution.  For a record that needs
an abstract, the providers are consulted in the fixed order OpenAlex,
Semantic Scholar, CrossRef, PubMed, stopping at the first one whose result is
truthy: the record's Abstract becomes exactly that value, exactly the
counter of that provider is incremented (the failed counter and all other
provider counters unchanged), and the number of providers invoked is the
position of the successful one.  If all four results are falsy, only the
failed counter is incremented, the record is unchanged, and all four
providers were invoked. -/
theorem C8_cascade_attribution (p1 p2 p3 p4 : Option String → Option String)
    (r : ERec) (st : AbsStats) (h : skipAbs r = false) :
    (∀ i v, firstTruthyIdx [p1 r.doi, p2 r.doi, p3 r.doi, p4 r.doi] = some (i, v) →
      enrichAbsOne p1 p2 p3 p4 r st = ({r with abstract := some v}, bumpStat st i, i + 1)) ∧
    (firstTruthyIdx [p1 r.doi, p2 r.doi, p3 r.doi, p4 r.doi] = none →
      enrichAbsOne p1 p2 p3 p4 r st = (r, {st with failed := st.failed + 1}, 4)) := by
  cases h1 : truthyStr (p1 r.doi) with
  | some v1 =>
    constructor
    · intro i v hf
      simp only [firstTruthyIdx, h1] at hf
      obtain ⟨hi, hv⟩ := Prod.mk.injEq .. ▸ Option.some.injEq .. ▸ hf
      simp only [enrichAbsOne, h, if_neg, Bool.false_eq_true, not_false_iff, h1]
      rw [← hi, ← hv]
      rfl
    · intro hf
      simp [firstTruthyIdx, h1] at hf
  | none =>
    cases h2 : truthyStr (p2 r.doi) with
    | some v2 =>
      constructor
      · intro i v hf
        simp only [firstTruthyIdx, h1, h2, Option.map_some] at hf
        obtain ⟨hi, hv⟩ := Prod.mk.injEq .. ▸ Option.some.injEq .. ▸ hf
        simp only [enrichAbsOne, h, if_neg, Bool.false_eq_true, not_false_iff, h1, h2]
        rw [← hi, ← hv]
        rfl
      · intro hf
        simp [firstTruthyIdx, h1, h2] at hf
    | none =>
      cases h3 : truthyStr (p3 r.doi) with
      | some v3 =>
        constructor
        · intro i v hf
          simp only [firstTruthyIdx, h1, h2, h3, Option.map_some] at hf
          obtain ⟨hi, hv⟩ := Prod.mk.injEq .. ▸ Option.some.injEq .. ▸ hf
          simp only [enrichAbsOne, h, if_neg, Bool.false_eq_true, not_false_iff, h1, h2, h3]
          rw [← hi, ← hv]
          rfl
        · intro hf
          simp [firstTruthyIdx, h1, h2, h3] at hf
      | none =>
        cases h4 : truthyStr (p4 r.doi) with
        | some v4 =>
          constructor
          · intro i v hf
            simp only [firstTruthyIdx, h1, h2, h3, h4, Option.map_some] at hf
            obtain ⟨hi, hv⟩ := Prod.mk.injEq .. ▸ Option.some.injEq .. ▸ hf
            simp only [enrichAbsOne, h, if_neg, Bool.false_eq_true, not_false_iff,
              h1, h2, h3, h4]
            rw [← hi, ← hv]
            rfl
          · intro hf
            simp [firstTruthyIdx, h1, h2, h3, h4] at hf
        | none =>
          constructor
          · intro i v hf
            simp [firstTruthyIdx, h1, h2, h3, h4] at hf
          · intro _
            simp [enrichAbsOne, h, h1, h2, h3, h4]

/-- Witness for C8_cascade_attribution: provider 1 yields nothing, provider 2
yields the empty string (falsy), provider 3 succeeds — the abstract equals
provider 3's value, only the crossref counter is incremented, and exactly 3
providers were invoked. -/
theorem C8_witness :
    enrichAbsOne (fun _ => none) (fun _ => some "") (fun _ => some "abs")
      (fun _ => none) ⟨some "10.1/x", none⟩ ⟨0, 0, 0, 0, 0⟩ =
      (⟨some "10.1/x", some "abs"⟩, ⟨0, 0, 1, 0, 0⟩, 3) :=
  (C8_cascade_attribution (fun _ => none) (fun _ => some "") (fun _ => some "abs")
    (fun _ => none) ⟨some "10.1/x", none⟩ ⟨0, 0, 0, 0, 0⟩ rfl).1 2 "abs" rfl

end Tricho

namespace Tricho

/-- A row of the authors enrichment loop (fetch_authors.py): the DOI cell,
the All_Authors cell, the Author_Count_Actual cell and the
Author_Affiliations cell. -/
structure URec where
  doi : Option String
  allAuthors : Option String
  authorCountActual : Nat
  authorAffil : Option String
deriving DecidableEq, Repr

/-- Skip test of the authors loop:
`pd.notna(row.get('All_Authors')) and str(row.get('All_Authors')).strip()`. -/
def skipAuth (r : URec) : Bool :=
  match r.allAuthors with
  | some s => decide (trimStr s ≠ "")
  | none => false

/-- Processing of one record by the main loop of fetch_authors.py: skip if
All_Authors is already a non-blank string; otherwise invoke
`get_authors_openalex` once (modelled by its result triple on this record's
DOI) and, if the returned author string is truthy, write the three fields —
affiliations only when that part is truthy too.  The second component counts
provider invocations. -/
def enrichAuthOne (q : Option String → Option String × Nat × Option String)
    (r : URec) : URec × Nat :=
  if skipAuth r then (r, 0)
  else
    match truthyStr (q r.doi).1 with
    | some a =>
      ({r with
          allAuthors := some a,
          authorCountActual := (q r.doi).2.1,
          authorAffil :=
            (match truthyStr (q r.doi).2.2 with
             | some f => some f
             | none => r.authorAffil)}, 1)
    | none => (r, 1)

/-- The main loop of fetch_authors.py over the whole collection. -/
def enrichAuthors (q : Option String → Option String × Nat × Option String) :
    List URec → List URec × Nat
  | [] => ([], 0)
  | r :: rs =>
    let one := enrichAuthOne q r
    let rest := enrichAuthors q rs
    (one.1 :: rest.1, one.2 + rest.2)

/-- Claim C6 counterexample: a record whose Abstract cell is the one-space
string " " carries a NON-EMPTY string value for the target field, yet the
loop does not skip it — the skip test is `.strip()`-based — and all four
providers are invoked (4 provider calls, not 0). -/
theorem C6_counterexample :
    ((" " : String).length ≠ 0) ∧
    (enrichAbstracts (fun _ => none) (fun _ => none) (fun _ => none) (fun _ => none)
      [⟨some "10.1/x", some " "⟩] ⟨0, 0, 0, 0, 0⟩).2.2 = 4 ∧
    (enrichAbstracts (fun _ => none) (fun _ => none) (fun _ => none) (fun _ => none)
      [⟨some "10.1/x", some " "⟩] ⟨0, 0, 0, 0, 0⟩).2.1.failed = 1 :=
  ⟨by decide, by decide, by decide⟩

/-- Claim C6 as amended: for every collection in which every record's target
field already holds a string that is non-blank (non-empty after stripping
whitespace — the test the code performs), re-running the enrichment loop
invokes zero providers and returns the collection and the statistics
unchanged; likewise for the authors loop. -/
theorem C6_enrichment_idempotent
    (p1 p2 p3 p4 : Option String → Option String)
    (q : Option String → Option String × Nat × Option String)
    (dfA : List ERec) (st : AbsStats) (dfU : List URec)
    (h1 : ∀ r ∈ dfA, skipAbs r = true) (h2 : ∀ r ∈ dfU, skipAuth r = true) :
    enrichAbstracts p1 p2 p3 p4 dfA st = (dfA, st, 0) ∧
    enrichAuthors q dfU = (dfU, 0) := by
  constructor
  · induction dfA with
    | nil => rfl
    | cons r rs ih =>
      have hr : skipAbs r = true := h1 r (List.mem_cons_self _ _)
      have hrest := ih (fun x hx => h1 x (List.mem_cons_of_mem _ hx))
      simp [enrichAbstracts, enrichAbsOne, hr, hrest]
  · induction dfU with
    | nil => rfl
    | cons r rs ih =>
      have hr : skipAuth r = true := h2 r (List.mem_cons_self _ _)
      have hrest := ih (fun x hx => h2 x (List.mem_cons_of_mem _ hx))
      simp [enrichAuthors, enrichAuthOne, hr, hrest]

/-- Witness for C6_enrichment_idempotent on one-record collections whose
target fields are non-blank. -/
theorem C6_witness :
    enrichAbstracts (fun _ => none) (fun _ => none) (fun _ => none) (fun _ => none)
      [⟨some "10.1/x", some "text"⟩] ⟨1, 2, 3, 4, 5⟩ =
      ([⟨some "10.1/x", some "text"⟩], ⟨1, 2, 3, 4, 5⟩, 0) ∧
    enrichAuthors (fun _ => (none, 0, none)) [⟨some "10.1/x", some "A; B", 2, none⟩] =
      ([⟨some "10.1/x", some "A; B", 2, none⟩], 0) :=
  C6_enrichment_idempotent (fun _ => none) (fun _ => none) (fun _ => none)
    (fun _ => none) (fun _ => (none, 0, none))
    [⟨some "10.1/x", some "text"⟩] ⟨1, 2, 3, 4, 5⟩
    [⟨some "10.1/x", some "A; B", 2, none⟩]
    (by decide) (by decide)

end Tricho

namespace Tricho

/-- A row of one of the two coverage collections as `find_overlaps` sees it:
the DOI cell and the Title cell, each possibly NaN. -/
structure ORec where
  doi : Option String
  title : Option String
deriving DecidableEq, Repr

/-- The key a record contributes to its collection's DOI dict:
rows pass `pd.notna(row.get('DOI')) and str(row['DOI']).strip()` and are
keyed by `str(row['DOI']).lower()` (lower-cased but NOT stripped). -/
def doiDictKey (r : ORec) : Option String :=
  match r.doi with
  | none => none
  | some s => if trimStr s = "" then none else some (lowerStr s)

/-- Building the DOI-to-row-index dict of one collection
(`{str(row['DOI']).lower(): idx for idx, row in df.iterrows() if ...}`):
iterate rows in order with their positional index, inserting into the dict —
a repeated key keeps its position and is overwritten with the later index. -/
def bddGo : Nat → List (String × Nat) → List ORec → List (String × Nat)
  | _, d, [] => d
  | i, d, r :: rs =>
    match doiDictKey r with
    | some k => bddGo (i + 1) (dictInsert d k i) rs
    | none => bddGo (i + 1) d rs

/-- The DOI dict of a collection. -/
def buildDoiDict (rs : List ORec) : List (String × Nat) := bddGo 0 [] rs

/-- Match type tag of a reported overlap. -/
inductive MType where
  | DOI
  | Title
deriving DecidableEq, Repr

/-- One reported overlap: match type, index into the Scopus collection,
index into the Google Scholar collection, similarity score. -/
structure Overlap where
  mtype : MType
  sIdx : Nat
  gIdx : Nat
  sim : ℚ
deriving DecidableEq, Repr

/-- The DOI pass of `find_overlaps`: for each entry of the Scopus DOI dict in
order, a key also present in the Google Scholar dict yields a DOI-typed match
with similarity 1.0, and both row indices are added to the matched sets. -/
def doiPassGo (dB : List (String × Nat)) :
    List (String × Nat) → List Overlap × List Nat × List Nat
  | [] => ([], [], [])
  | (k, si) :: rest =>
    match dictLookup dB k with
    | some gi =>
      let res := doiPassGo dB rest
      (⟨.DOI, si, gi, 1⟩ :: res.1, si :: res.2.1, gi :: res.2.2)
    | none => doiPassGo dB rest

/-- Python str.split() with no separator: split into maximal runs of
non-whitespace characters, dropping empty pieces. -/
def wordsAux : List Char → List Char → List String
  | [], acc => if acc = [] then [] else [String.mk acc.reverse]
  | c :: cs, acc =>
    if c.isWhitespace then
      if acc = [] then wordsAux cs [] else String.mk acc.reverse :: wordsAux cs []
    else wordsAux cs (c :: acc)

/-- Python str.split() on a string. -/
def pySplitWs (s : String) : List String := wordsAux s.data []

/-- A character kept by the title cleaning regex (everything outside the
class of word characters and whitespace is removed). -/
def keepChar (c : Char) : Bool := c.isAlphanum || c = '_' || c.isWhitespace

/-- `normalize_title` of analyze_database_coverage.py: NaN becomes the empty
string; otherwise lower-case, delete every character that is neither a word
character nor whitespace, and collapse whitespace by splitting and re-joining
with single spaces. -/
def normalize_title (t : Option String) : String :=
  match t with
  | none => ""
  | some s =>
    String.intercalate " " (pySplitWs (String.mk ((lowerStr s).data.filter keepChar)))

/-- `title_similarity` of analyze_database_coverage.py, abstracted over the
character-sequence ratio metric (`difflib.SequenceMatcher(...).ratio()` is
the `simf` parameter, an arbitrary function into the rationals): both titles
are normalized first. -/
def title_similarity (simf : String → String → ℚ) (t1 t2 : Option String) : ℚ :=
  simf (normalize_title t1) (normalize_title t2)

/-- The blank-title skip test of the title pass:
`pd.isna(title) or not str(title).strip()`. -/
def blankTitle (r : ORec) : Bool :=
  match r.title with
  | none => true
  | some s => trimStr s = ""

/-- The inner candidate search of the title pass, over the Google Scholar
rows in order: skip already-matched rows and blank titles; a similarity
strictly above the running best (initially the threshold 0.85) becomes the
new best together with its row index. -/
def bestCandGo (simf : String → String → ℚ) (ta : Option String) (gm : List Nat) :
    Nat → List ORec → ℚ × Option Nat → ℚ × Option Nat
  | _, [], st => st
  | gi, b :: bs, st =>
    if gi ∈ gm then bestCandGo simf ta gm (gi + 1) bs st
    else if blankTitle b then bestCandGo simf ta gm (gi + 1) bs st
    else
      let s := title_similarity simf ta b.title
      if st.1 < s then bestCandGo simf ta gm (gi + 1) bs (s, some gi)
      else bestCandGo simf ta gm (gi + 1) bs st

/-- The outer title pass of `find_overlaps`, over the Scopus rows in order:
skip rows already matched by the DOI pass and rows with blank titles; when
the candidate search returns a best match, append a Title-typed overlap with
the best similarity and mark both indices matched. -/
def titlePassGo (simf : String → String → ℚ) (B : List ORec) :
    Nat → List ORec → List Overlap × List Nat × List Nat →
    List Overlap × List Nat × List Nat
  | _, [], st => st
  | si, a :: arest, st =>
    if si ∈ st.2.1 then titlePassGo simf B (si + 1) arest st
    else if blankTitle a then titlePassGo simf B (si + 1) arest st
    else
      match bestCandGo simf a.title st.2.2 0 B ((0.85 : ℚ), none) with
      | (bs, some g) =>
        titlePassGo simf B (si + 1) arest
          (st.1 ++ [⟨.Title, si, g, bs⟩], st.2.1 ++ [si], st.2.2 ++ [g])
      | (_, none) => titlePassGo simf B (si + 1) arest st

/-- `find_overlaps` of analyze_database_coverage.py: build both DOI dicts,
run the DOI pass, then the greedy title-similarity pass; returns the overlap
list and the two matched-index sets. -/
def find_overlaps (simf : String → String → ℚ) (A B : List ORec) :
    List Overlap × List Nat × List Nat :=
  titlePassGo simf B 0 A (doiPassGo (buildDoiDict B) (buildDoiDict A))

end Tricho

namespace Tricho

theorem dictLookup_dictInsert_self {κ ν : Type} [DecidableEq κ]
    (d : List (κ × ν)) (k : κ) (v : ν) :
    dictLookup (dictInsert d k v) k = some v := by
  induction d with
  | nil => simp [dictInsert, dictLookup]
  | cons qv d ih =>
    obtain ⟨q, w⟩ := qv
    by_cases hq : q = k
    · simp [dictInsert, dictLookup, hq]
    · simp only [dictInsert, hq, if_neg, not_false_iff, dictLookup]
      simp [hq, ih]

theorem dictLookup_dictInsert_other {κ ν : Type} [DecidableEq κ]
    (d : List (κ × ν)) (k k' : κ) (v : ν) (hne : k' ≠ k) :
    dictLookup (dictInsert d k v) k' = dictLookup d k' := by
  induction d with
  | nil => simp [dictInsert, dictLookup, Ne.symm hne]
  | cons qv d ih =>
    obtain ⟨q, w⟩ := qv
    by_cases hq : q = k
    · subst hq
      simp [dictInsert, dictLookup, Ne.symm hne]
    · simp only [dictInsert, hq, if_neg, not_false_iff, dictLookup]
      by_cases hq' : q = k'
      · simp [hq']
      · simp [hq', ih]


theorem keys_dictInsert {κ ν : Type} [DecidableEq κ]
    (d : List (κ × ν)) (k : κ) (v : ν) :
    (dictInsert d k v).map Prod.fst =
      (if k ∈ d.map Prod.fst then d.map Prod.fst else d.map Prod.fst ++ [k]) := by
  induction d with
  | nil => simp [dictInsert]
  | cons qv d ih =>
    obtain ⟨q, w⟩ := qv
    by_cases hq : q = k
    · subst hq
      simp [dictInsert]
    · have hkq : ¬(k = q) := fun h => hq h.symm
      simp only [dictInsert, hq, if_neg, not_false_iff, List.map_cons, ih,
        List.mem_cons]
      by_cases hk : k ∈ d.map Prod.fst
      · simp [hk]
      · simp [hk, hkq]

theorem nodup_keys_dictInsert {κ ν : Type} [DecidableEq κ]
    (d : List (κ × ν)) (k : κ) (v : ν) (hnd : (d.map Prod.fst).Nodup) :
    ((dictInsert d k v).map Prod.fst).Nodup := by
  rw [keys_dictInsert]
  by_cases hk : k ∈ d.map Prod.fst
  · simpa [hk] using hnd
  · simp only [hk, if_neg, not_false_iff]
    simp [List.nodup_append, hnd, hk]

theorem dictLookup_mem_of {κ ν : Type} [DecidableEq κ]
    (d : List (κ × ν)) (k : κ) (v : ν) (h : dictLookup d k = some v) :
    (k, v) ∈ d := by
  induction d with
  | nil => simp [dictLookup] at h
  | cons qv d ih =>
    obtain ⟨q, w⟩ := qv
    by_cases hq : q = k
    · subst hq
      simp only [dictLookup, if_true, eq_self_iff_true, Option.some.injEq] at h
      subst h
      exact List.mem_cons_self _ _
    · simp only [dictLookup, hq, if_neg, not_false_iff] at h
      exact List.mem_cons_of_mem _ (ih h)

end Tricho

namespace Tricho

/-- Index of the last record (counting from offset i0) whose DOI-dict key is
k — the index the insertion-ordered dict construction ends up storing for k. -/
def lastKeyIdx : Nat → List ORec → String → Option Nat
  | _, [], _ => none
  | i, r :: rs, k =>
    match lastKeyIdx (i + 1) rs k with
    | some j => some j
    | none => if doiDictKey r = some k then some i else none

theorem bdd_lookup_none (rs : List ORec) (k : String) :
    ∀ (i0 : Nat) (d : List (String × Nat)),
    lastKeyIdx i0 rs k = none → dictLookup (bddGo i0 d rs) k = dictLookup d k := by
  induction rs with
  | nil => intro i0 d _; rfl
  | cons r rs ih =>
    intro i0 d h
    simp only [lastKeyIdx] at h
    simp only [bddGo]
    cases hlast : lastKeyIdx (i0 + 1) rs k with
    | some j' => rw [hlast] at h; exact absurd h (by simp)
    | none =>
      rw [hlast] at h
      cases hkey : doiDictKey r with
      | some k' =>
        have hne : k ≠ k' := by
          intro hc
          rw [hkey, hc] at h
          simp at h
        rw [ih (i0 + 1) _ hlast, dictLookup_dictInsert_other d k' k i0 hne]
      | none => exact ih (i0 + 1) d hlast

theorem bdd_lookup_some (rs : List ORec) (k : String) :
    ∀ (i0 : Nat) (d : List (String × Nat)) (j : Nat),
    lastKeyIdx i0 rs k = some j → dictLookup (bddGo i0 d rs) k = some j := by
  induction rs with
  | nil => intro i0 d j h; simp [lastKeyIdx] at h
  | cons r rs ih =>
    intro i0 d j h
    simp only [lastKeyIdx] at h
    simp only [bddGo]
    cases hlast : lastKeyIdx (i0 + 1) rs k with
    | some j' =>
      rw [hlast] at h
      cases hkey : doiDictKey r with
      | some k' => exact ih (i0 + 1) _ j (by rw [hlast]; exact h)
      | none => exact ih (i0 + 1) _ j (by rw [hlast]; exact h)
    | none =>
      rw [hlast] at h
      by_cases hkey : doiDictKey r = some k
      · rw [if_pos hkey] at h
        rw [hkey]
        have hnone := bdd_lookup_none rs k (i0 + 1) (dictInsert d k i0) hlast
        rw [hnone, dictLookup_dictInsert_self]
        exact h
      · rw [if_neg hkey] at h
        exact absurd h (by simp)

end Tricho

namespace Tricho

theorem nodup_keys_bddGo (rs : List ORec) :
    ∀ (i0 : Nat) (d : List (String × Nat)), (d.map Prod.fst).Nodup →
    ((bddGo i0 d rs).map Prod.fst).Nodup := by
  induction rs with
  | nil => intro i0 d h; exact h
  | cons r rs ih =>
    intro i0 d h
    simp only [bddGo]
    cases hkey : doiDictKey r with
    | some k => exact ih (i0 + 1) _ (nodup_keys_dictInsert d k i0 h)
    | none => exact ih (i0 + 1) d h

theorem lastKeyIdx_none_of (k : String) (rs : List ORec)
    (h : ∀ r ∈ rs, doiDictKey r ≠ some k) : ∀ i0, lastKeyIdx i0 rs k = none := by
  induction rs with
  | nil => intro i0; rfl
  | cons r rs ih =>
    intro i0
    simp only [lastKeyIdx]
    rw [ih (fun x hx => h x (List.mem_cons_of_mem _ hx)) (i0 + 1)]
    rw [if_neg (h r (List.mem_cons_self _ _))]

theorem lastKeyIdx_of_last (k : String) (rs : List ORec) :
    ∀ (n : Nat) (r : ORec), rs.get? n = some r → doiDictKey r = some k →
    (∀ m r', n < m → rs.get? m = some r' → doiDictKey r' ≠ some k) →
    ∀ i0, lastKeyIdx i0 rs k = some (i0 + n) := by
  induction rs with
  | nil => intro n r hn _ _ _; simp at hn
  | cons x xs ih =>
    intro n r hn hk hlast i0
    cases n with
    | zero =>
      simp only [List.get?] at hn
      cases hn
      simp only [lastKeyIdx]
      have hnone : lastKeyIdx (i0 + 1) xs k = none := by
        refine lastKeyIdx_none_of k xs ?_ (i0 + 1)
        intro r' hr'
        obtain ⟨m, hm⟩ := List.get?_of_mem hr'
        exact hlast (m + 1) r' (by omega) (by simpa using hm)
      rw [hnone]
      simp [hk]
    | succ n =>
      simp only [List.get?] at hn
      have hlast' : ∀ m r', n < m → xs.get? m = some r' → doiDictKey r' ≠ some k := by
        intro m r' hm hget
        exact hlast (m + 1) r' (by omega) (by simpa using hget)
      have := ih n r hn hk hlast' (i0 + 1)
      simp only [lastKeyIdx, this]
      congr 1
      omega

theorem lastKeyIdx_inv (k : String) (rs : List ORec) :
    ∀ (i0 j : Nat), lastKeyIdx i0 rs k = some j →
    ∃ n r, j = i0 + n ∧ rs.get? n = some r ∧ doiDictKey r = some k := by
  induction rs with
  | nil => intro i0 j h; simp [lastKeyIdx] at h
  | cons x xs ih =>
    intro i0 j h
    simp only [lastKeyIdx] at h
    cases hlast : lastKeyIdx (i0 + 1) xs k with
    | some j' =>
      rw [hlast] at h
      obtain rfl : j' = j := Option.some.inj h
      obtain ⟨n, r, hj, hget, hkey⟩ := ih (i0 + 1) j' hlast
      exact ⟨n + 1, r, by omega, by simpa using hget, hkey⟩
    | none =>
      rw [hlast] at h
      by_cases hkey : doiDictKey x = some k
      · rw [if_pos hkey] at h
        cases h
        exact ⟨0, x, by omega, rfl, hkey⟩
      · rw [if_neg hkey] at h
        exact absurd h (by simp)

theorem buildDict_lookup_inv (rs : List ORec) (k : String) (j : Nat)
    (h : dictLookup (buildDoiDict rs) k = some j) : lastKeyIdx 0 rs k = some j := by
  cases hlast : lastKeyIdx 0 rs k with
  | some j' =>
    have := bdd_lookup_some rs k 0 [] j' hlast
    rw [buildDoiDict] at h
    rw [this] at h
    cases h
    rfl
  | none =>
    have := bdd_lookup_none rs k 0 [] hlast
    rw [buildDoiDict] at h
    rw [this] at h
    exact absurd h (by simp [dictLookup])

theorem buildDict_value_key (rs : List ORec) (k : String) (j : Nat)
    (h : dictLookup (buildDoiDict rs) k = some j) :
    ∃ r, rs.get? j = some r ∧ doiDictKey r = some k := by
  obtain ⟨n, r, hj, hget, hkey⟩ := lastKeyIdx_inv k rs 0 j (buildDict_lookup_inv rs k j h)
  exact ⟨r, by rw [show j = n by omega]; exact hget, hkey⟩

theorem nodup_keys_buildDict (rs : List ORec) :
    ((buildDoiDict rs).map Prod.fst).Nodup :=
  nodup_keys_bddGo rs 0 [] (by simp)

end Tricho

namespace Tricho

theorem doiPass_count_zero (dB : List (String × Nat)) (i jB : Nat) :
    ∀ l : List (String × Nat), (∀ pr ∈ l, pr.2 ≠ i) →
    (∀ pr ∈ l, ∀ g, dictLookup dB pr.1 = some g → g ≠ jB) →
    ((doiPassGo dB l).1.countP (fun o => decide (o.sIdx = i)) = 0) ∧
    ((doiPassGo dB l).1.countP (fun o => decide (o.gIdx = jB)) = 0) ∧
    (∀ o ∈ (doiPassGo dB l).1, o.sIdx ≠ i) := by
  intro l
  induction l with
  | nil => intro _ _; exact ⟨rfl, rfl, by simp [doiPassGo]⟩
  | cons pr rest ih =>
    intro hs hg
    obtain ⟨k, s⟩ := pr
    have hs' : ∀ q ∈ rest, q.2 ≠ i := fun q hq => hs q (List.mem_cons_of_mem _ hq)
    have hg' : ∀ q ∈ rest, ∀ g, dictLookup dB q.1 = some g → g ≠ jB :=
      fun q hq => hg q (List.mem_cons_of_mem _ hq)
    obtain ⟨ih1, ih2, ih3⟩ := ih hs' hg'
    simp only [doiPassGo]
    cases hlook : dictLookup dB k with
    | some g =>
      have hsne : s ≠ i := hs (k, s) (List.mem_cons_self _ _)
      have hgne : g ≠ jB := hg (k, s) (List.mem_cons_self _ _) g hlook
      refine ⟨?_, ?_, ?_⟩
      · rw [List.countP_cons_of_neg _ _ (by simpa using hsne)]
        exact ih1
      · rw [List.countP_cons_of_neg _ _ (by simpa using hgne)]
        exact ih2
      · intro o ho
        rcases List.mem_cons.1 ho with rfl | ho
        · exact hsne
        · exact ih3 o ho
    | none => exact ⟨ih1, ih2, ih3⟩

theorem doiPass_unique (dB : List (String × Nat)) (k0 : String) (i jB : Nat)
    (hlookB : dictLookup dB k0 = some jB)
    (hBinj : ∀ k' g, dictLookup dB k' = some g → g = jB → k' = k0) :
    ∀ dA : List (String × Nat), (k0, i) ∈ dA → (dA.map Prod.fst).Nodup →
    (∀ pr ∈ dA, pr.2 = i → pr.1 = k0) →
    ((doiPassGo dB dA).1.countP (fun o => decide (o.sIdx = i)) = 1) ∧
    ((doiPassGo dB dA).1.countP (fun o => decide (o.gIdx = jB)) = 1) ∧
    (∀ o ∈ (doiPassGo dB dA).1, o.sIdx = i → o = ⟨.DOI, i, jB, 1⟩) ∧
    i ∈ (doiPassGo dB dA).2.1 ∧ jB ∈ (doiPassGo dB dA).2.2 := by
  intro dA
  induction dA with
  | nil => intro hmem _ _; simp at hmem
  | cons pr rest ih =>
    intro hmem hkeys hself
    obtain ⟨k', s'⟩ := pr
    simp only [List.map_cons, List.nodup_cons] at hkeys
    rcases List.mem_cons.1 hmem with heq | hmem'
    · obtain ⟨hk, hsv⟩ := Prod.mk.injEq .. ▸ heq
      subst hk
      subst hsv
      simp only [doiPassGo, hlookB]
      have hrest : (∀ q ∈ rest, q.2 ≠ i) ∧
          (∀ q ∈ rest, ∀ g, dictLookup dB q.1 = some g → g ≠ jB) := by
        constructor
        · intro q hq hc
          have := hself q (List.mem_cons_of_mem _ hq) hc
          exact hkeys.1 (this ▸ List.mem_map_of_mem Prod.fst hq)
        · intro q hq g hg hc
          have := hBinj q.1 g hg hc
          exact hkeys.1 (this ▸ List.mem_map_of_mem Prod.fst hq)
      obtain ⟨hz1, hz2, hz3⟩ := doiPass_count_zero dB i jB rest hrest.1 hrest.2
      refine ⟨?_, ?_, ?_, ?_, ?_⟩
      · rw [List.countP_cons_of_pos _ _ (by simp)]
        rw [hz1]
      · rw [List.countP_cons_of_pos _ _ (by simp)]
        rw [hz2]
      · intro o ho hoi
        rcases List.mem_cons.1 ho with rfl | ho
        · rfl
        · exact absurd hoi (hz3 o ho)
      · exact List.mem_cons_self _ _
      · exact List.mem_cons_self _ _
    · have hk' : k' ≠ k0 := by
        intro hc
        exact hkeys.1 (hc ▸ List.mem_map_of_mem Prod.fst hmem')
      have hs' : s' ≠ i := fun hc => hk' (hself (k', s') (List.mem_cons_self _ _) hc)
      have hself' : ∀ q ∈ rest, q.2 = i → q.1 = k0 :=
        fun q hq => hself q (List.mem_cons_of_mem _ hq)
      obtain ⟨ih1, ih2, ih3, ih4, ih5⟩ := ih hmem' hkeys.2 hself'
      simp only [doiPassGo]
      cases hlook : dictLookup dB k' with
      | some g =>
        have hgne : g ≠ jB := fun hc => hk' (hBinj k' g hlook hc)
        refine ⟨?_, ?_, ?_, ?_, ?_⟩
        · rw [List.countP_cons_of_neg _ _ (by simpa using hs')]
          exact ih1
        · rw [List.countP_cons_of_neg _ _ (by simpa using hgne)]
          exact ih2
        · intro o ho hoi
          rcases List.mem_cons.1 ho with rfl | ho
          · exact absurd hoi hs'
          · exact ih3 o ho hoi
        · exact List.mem_cons_of_mem _ ih4
        · exact List.mem_cons_of_mem _ ih5
      | none => exact ⟨ih1, ih2, ih3, ih4, ih5⟩

end Tricho

namespace Tricho

theorem doiPass_base_inv (dB : List (String × Nat))
    (hBinj2 : ∀ k1 k2 g, dictLookup dB k1 = some g → dictLookup dB k2 = some g → k1 = k2) :
    ∀ dA : List (String × Nat), (dA.map Prod.fst).Nodup →
    (((doiPassGo dB dA).1.map Overlap.gIdx).Nodup) ∧
    (∀ o ∈ (doiPassGo dB dA).1, o.gIdx ∈ (doiPassGo dB dA).2.2) ∧
    (∀ o ∈ (doiPassGo dB dA).1, o.mtype = MType.DOI) ∧
    (∀ o ∈ (doiPassGo dB dA).1, ∃ k', k' ∈ dA.map Prod.fst ∧
      dictLookup dB k' = some o.gIdx) := by
  intro dA
  induction dA with
  | nil =>
    intro _
    refine ⟨by simp [doiPassGo], by simp [doiPassGo], by simp [doiPassGo],
      by simp [doiPassGo]⟩
  | cons pr rest ih =>
    intro hkeys
    obtain ⟨k, s⟩ := pr
    simp only [List.map_cons, List.nodup_cons] at hkeys
    obtain ⟨ih1, ih2, ih3, ih4⟩ := ih hkeys.2
    simp only [doiPassGo]
    cases hlook : dictLookup dB k with
    | some g =>
      have hg : g ∉ (doiPassGo dB rest).1.map Overlap.gIdx := by
        intro hc
        rcases List.mem_map.1 hc with ⟨o, ho, hog⟩
        obtain ⟨k', hk', hk'look⟩ := ih4 o ho
        have : k' = k := hBinj2 k' k g (hog ▸ hk'look) hlook
        exact hkeys.1 (this ▸ hk')
      refine ⟨?_, ?_, ?_, ?_⟩
      · simp only [List.map_cons, List.nodup_cons]
        exact ⟨hg, ih1⟩
      · intro o ho
        rcases List.mem_cons.1 ho with rfl | ho
        · exact List.mem_cons_self _ _
        · exact List.mem_cons_of_mem _ (ih2 o ho)
      · intro o ho
        rcases List.mem_cons.1 ho with rfl | ho
        · rfl
        · exact ih3 o ho
      · intro o ho
        rcases List.mem_cons.1 ho with rfl | ho
        · exact ⟨k, List.mem_cons_self _ _, hlook⟩
        · obtain ⟨k', hk', hk'look⟩ := ih4 o ho
          exact ⟨k', List.mem_cons_of_mem _ hk', hk'look⟩
    | none =>
      refine ⟨ih1, ih2, ih3, ?_⟩
      intro o ho
      obtain ⟨k', hk', hk'look⟩ := ih4 o ho
      exact ⟨k', List.mem_cons_of_mem _ hk', hk'look⟩

/-- Invariant of the inner candidate-search state: the running best is at
least the threshold, and a recorded best candidate is an unmatched row of B,
strictly above the threshold, whose similarity against the current record is
exactly the running best. -/
def BestInv (simf : String → String → ℚ) (B : List ORec) (gm : List Nat)
    (ta : Option String) (st : ℚ × Option Nat) : Prop :=
  (0.85 : ℚ) ≤ st.1 ∧
  ∀ g, st.2 = some g → g ∉ gm ∧ (0.85 : ℚ) < st.1 ∧
    ∃ b, B.get? g = some b ∧ st.1 = title_similarity simf ta b.title

theorem bestCand_inv (simf : String → String → ℚ) (B : List ORec)
    (gm : List Nat) (ta : Option String) :
    ∀ (B0 : List ORec) (gi0 : Nat) (st : ℚ × Option Nat),
    (∀ j, B0.get? j = B.get? (gi0 + j)) →
    BestInv simf B gm ta st →
    BestInv simf B gm ta (bestCandGo simf ta gm gi0 B0 st) := by
  intro B0
  induction B0 with
  | nil => intro gi0 st _ hinv; exact hinv
  | cons b bs ih =>
    intro gi0 st hsync hinv
    have hsync' : ∀ j, bs.get? j = B.get? (gi0 + 1 + j) := by
      intro j
      have := hsync (j + 1)
      simp only [List.get?] at this
      rw [this]
      congr 1
      omega
    simp only [bestCandGo]
    by_cases hgm : gi0 ∈ gm
    · rw [if_pos hgm]
      exact ih (gi0 + 1) st hsync' hinv
    · rw [if_neg hgm]
      by_cases hbl : blankTitle b = true
      · rw [if_pos hbl]
        exact ih (gi0 + 1) st hsync' hinv
      · rw [if_neg hbl]
        by_cases hlt : st.1 < title_similarity simf ta b.title
        · rw [if_pos hlt]
          refine ih (gi0 + 1) _ hsync' ⟨le_of_lt (lt_of_le_of_lt hinv.1 hlt), ?_⟩
          intro g hg
          obtain rfl : gi0 = g := Option.some.inj hg
          refine ⟨hgm, lt_of_le_of_lt hinv.1 hlt, b, ?_, rfl⟩
          have h0 := hsync 0
          simp only [List.get?] at h0
          rw [show gi0 = gi0 + 0 by omega]
          exact h0.symm
        · rw [if_neg hlt]
          exact ih (gi0 + 1) st hsync' hinv

end Tricho

namespace Tricho

theorem titlePass_preserve_c5 (simf : String → String → ℚ) (B : List ORec)
    (i jB : Nat) :
    ∀ (A0 : List ORec) (si : Nat) (st : List Overlap × List Nat × List Nat),
    (st.1.countP (fun o => decide (o.sIdx = i)) = 1) →
    (st.1.countP (fun o => decide (o.gIdx = jB)) = 1) →
    (∀ o ∈ st.1, o.sIdx = i → o = ⟨.DOI, i, jB, 1⟩) →
    i ∈ st.2.1 → jB ∈ st.2.2 →
    ((titlePassGo simf B si A0 st).1.countP (fun o => decide (o.sIdx = i)) = 1) ∧
    ((titlePassGo simf B si A0 st).1.countP (fun o => decide (o.gIdx = jB)) = 1) ∧
    (∀ o ∈ (titlePassGo simf B si A0 st).1, o.sIdx = i → o = ⟨.DOI, i, jB, 1⟩) := by
  intro A0
  induction A0 with
  | nil => intro si st h1 h2 h3 _ _; exact ⟨h1, h2, h3⟩
  | cons a arest ih =>
    intro si st h1 h2 h3 h4 h5
    simp only [titlePassGo]
    by_cases hsm : si ∈ st.2.1
    · rw [if_pos hsm]
      exact ih (si + 1) st h1 h2 h3 h4 h5
    · rw [if_neg hsm]
      by_cases hbl : blankTitle a = true
      · rw [if_pos hbl]
        exact ih (si + 1) st h1 h2 h3 h4 h5
      · rw [if_neg hbl]
        cases hbc : bestCandGo simf a.title st.2.2 0 B ((0.85 : ℚ), none) with
        | mk bs bm =>
          cases bm with
          | none => exact ih (si + 1) st h1 h2 h3 h4 h5
          | some g =>
            have hinv := bestCand_inv simf B st.2.2 a.title B 0
              ((0.85 : ℚ), none) (fun j => by simp) ⟨le_refl _, by simp⟩
            rw [hbc] at hinv
            obtain ⟨hgm, _, _⟩ := hinv.2 g rfl
            have hsi : si ≠ i := fun hc => hsm (hc ▸ h4)
            have hgj : g ≠ jB := fun hc => hgm (hc ▸ h5)
            refine ih (si + 1) _ ?_ ?_ ?_ ?_ ?_
            · rw [List.countP_append, List.countP_singleton]
              simp only [decide_eq_true_eq]
              rw [if_neg hsi]
              simpa using h1
            · rw [List.countP_append, List.countP_singleton]
              simp only [decide_eq_true_eq]
              rw [if_neg hgj]
              simpa using h2
            · intro o ho hoi
              rcases List.mem_append.1 ho with ho | ho
              · exact h3 o ho hoi
              · rcases List.mem_singleton.1 ho with rfl
                exact absurd hoi hsi
            · exact List.mem_append_left _ h4
            · exact List.mem_append_left _ h5

end Tricho

namespace Tricho

theorem titlePass_preserve_c10 (simf : String → String → ℚ) (A B : List ORec) :
    ∀ (A0 : List ORec) (si : Nat) (st : List Overlap × List Nat × List Nat),
    (∀ j, A0.get? j = A.get? (si + j)) →
    (∀ o ∈ st.1, o.mtype = MType.Title →
      (0.85 : ℚ) < o.sim ∧ ∃ a b, A.get? o.sIdx = some a ∧ B.get? o.gIdx = some b ∧
        o.sim = title_similarity simf a.title b.title) →
    ((st.1.map Overlap.gIdx).Nodup) →
    (∀ o ∈ st.1, o.gIdx ∈ st.2.2) →
    (∀ o ∈ (titlePassGo simf B si A0 st).1, o.mtype = MType.Title →
      (0.85 : ℚ) < o.sim ∧ ∃ a b, A.get? o.sIdx = some a ∧ B.get? o.gIdx = some b ∧
        o.sim = title_similarity simf a.title b.title) ∧
    (((titlePassGo simf B si A0 st).1.map Overlap.gIdx).Nodup) := by
  intro A0
  induction A0 with
  | nil => intro si st _ h1 h2 _; exact ⟨h1, h2⟩
  | cons a arest ih =>
    intro si st hsync h1 h2 h3
    have hsync' : ∀ j, arest.get? j = A.get? (si + 1 + j) := by
      intro j
      have := hsync (j + 1)
      simp only [List.get?] at this
      rw [this]
      congr 1
      omega
    simp only [titlePassGo]
    by_cases hsm : si ∈ st.2.1
    · rw [if_pos hsm]
      exact ih (si + 1) st hsync' h1 h2 h3
    · rw [if_neg hsm]
      by_cases hbl : blankTitle a = true
      · rw [if_pos hbl]
        exact ih (si + 1) st hsync' h1 h2 h3
      · rw [if_neg hbl]
        cases hbc : bestCandGo simf a.title st.2.2 0 B ((0.85 : ℚ), none) with
        | mk bs bm =>
          cases bm with
          | none => exact ih (si + 1) st hsync' h1 h2 h3
          | some g =>
            have hinv := bestCand_inv simf B st.2.2 a.title B 0
              ((0.85 : ℚ), none) (fun j => by simp) ⟨le_refl _, by simp⟩
            rw [hbc] at hinv
            obtain ⟨hgm, hgt, b, hgb, hsim⟩ := hinv.2 g rfl
            have ha : A.get? si = some a := by
              have h0 := hsync 0
              simp only [List.get?] at h0
              rw [show si = si + 0 by omega]
              exact h0.symm
            refine ih (si + 1) _ hsync' ?_ ?_ ?_
            · intro o ho hot
              rcases List.mem_append.1 ho with ho | ho
              · exact h1 o ho hot
              · rcases List.mem_singleton.1 ho with rfl
                exact ⟨hgt, a, b, ha, hgb, hsim⟩
            · simp only [List.map_append, List.map_cons, List.map_nil]
              rw [List.nodup_append]
              refine ⟨h2, List.nodup_singleton _, ?_⟩
              intro x hx hx'
              rcases List.mem_singleton.1 hx' with rfl
              rcases List.mem_map.1 hx with ⟨o, ho, hog⟩
              exact hgm (hog ▸ h3 o ho)
            · intro o ho
              rcases List.mem_append.1 ho with ho | ho
              · exact List.mem_append_left _ (h3 o ho)
              · rcases List.mem_singleton.1 ho with rfl
                exact List.mem_append_right _ (List.mem_singleton_self _)

end Tricho

namespace Tricho

/-- Claim C10: strict similarity threshold in the title pass, for every
similarity metric.  Every match reported with type Title has similarity
STRICTLY greater than 0.85 (so a candidate pair whose similarity is exactly
0.85 is never accepted) and that similarity is exactly the title_similarity
of the matched pair of records; moreover every record of collection B
appears in at most one reported match of either type. -/
theorem C10_title_threshold (simf : String → String → ℚ) (A B : List ORec) :
    (∀ o ∈ (find_overlaps simf A B).1, o.mtype = MType.Title →
      (0.85 : ℚ) < o.sim ∧ ∃ a b, A.get? o.sIdx = some a ∧ B.get? o.gIdx = some b ∧
        o.sim = title_similarity simf a.title b.title) ∧
    (∀ g : Nat, (find_overlaps simf A B).1.countP (fun o => decide (o.gIdx = g)) ≤ 1) := by
  have hBinj2 : ∀ k1 k2 g, dictLookup (buildDoiDict B) k1 = some g →
      dictLookup (buildDoiDict B) k2 = some g → k1 = k2 := by
    intro k1 k2 g hg1 hg2
    obtain ⟨r1, hr1, hk1⟩ := buildDict_value_key B k1 g hg1
    obtain ⟨r2, hr2, hk2⟩ := buildDict_value_key B k2 g hg2
    rw [hr1] at hr2
    obtain rfl := Option.some.inj hr2
    rw [hk1] at hk2
    exact Option.some.inj hk2
  obtain ⟨d1, d2, d3, _⟩ := doiPass_base_inv (buildDoiDict B) hBinj2
    (buildDoiDict A) (nodup_keys_buildDict A)
  have base1 : ∀ o ∈ (doiPassGo (buildDoiDict B) (buildDoiDict A)).1,
      o.mtype = MType.Title →
      (0.85 : ℚ) < o.sim ∧ ∃ a b, A.get? o.sIdx = some a ∧ B.get? o.gIdx = some b ∧
        o.sim = title_similarity simf a.title b.title := by
    intro o ho hot
    exact absurd ((d3 o ho).symm.trans hot) (by simp)
  obtain ⟨f1, f2⟩ := titlePass_preserve_c10 simf A B A 0
    (doiPassGo (buildDoiDict B) (buildDoiDict A)) (fun j => by simp) base1 d1 d2
  exact ⟨f1, fun g => countP_le_one_of_nodup_map Overlap.gIdx _ f2 g⟩

/-- Claim C5 as amended: if a record a of collection A and a record b of
collection B have non-blank DOIs with the same lower-cased key, and each is
the LAST record of its collection bearing that key (the dicts are built with
last-one-wins overwrite), then the overlap matcher reports exactly one match
involving a's index and exactly one involving b's index — the same match,
typed DOI with similarity 1.0 — and neither index occurs in any title-pass
match. -/
theorem C5_overlap_doi_last (simf : String → String → ℚ) (A B : List ORec)
    (i jB : Nat) (a b : ORec) (k : String)
    (hA : A.get? i = some a) (hak : doiDictKey a = some k)
    (hAlast : ∀ m r, i < m → A.get? m = some r → doiDictKey r ≠ some k)
    (hB : B.get? jB = some b) (hbk : doiDictKey b = some k)
    (hBlast : ∀ m r, jB < m → B.get? m = some r → doiDictKey r ≠ some k) :
    ((find_overlaps simf A B).1.countP (fun o => decide (o.sIdx = i)) = 1) ∧
    ((find_overlaps simf A B).1.countP (fun o => decide (o.gIdx = jB)) = 1) ∧
    (∀ o ∈ (find_overlaps simf A B).1, o.sIdx = i → o = ⟨.DOI, i, jB, 1⟩) := by
  have hlookA : dictLookup (buildDoiDict A) k = some i := by
    have h1 := lastKeyIdx_of_last k A i a hA hak hAlast 0
    have h2 := bdd_lookup_some A k 0 [] (0 + i) h1
    rw [buildDoiDict]
    rw [h2]
    simp
  have hlookB : dictLookup (buildDoiDict B) k = some jB := by
    have h1 := lastKeyIdx_of_last k B jB b hB hbk hBlast 0
    have h2 := bdd_lookup_some B k 0 [] (0 + jB) h1
    rw [buildDoiDict]
    rw [h2]
    simp
  have hkeys := nodup_keys_buildDict A
  have hmem : (k, i) ∈ buildDoiDict A := dictLookup_mem_of _ _ _ hlookA
  have hself : ∀ pr ∈ buildDoiDict A, pr.2 = i → pr.1 = k := by
    intro pr hpr hpv
    have hl : dictLookup (buildDoiDict A) pr.1 = some pr.2 :=
      dictLookup_mem (buildDoiDict A) hkeys pr hpr
    rw [hpv] at hl
    obtain ⟨r, hr, hrk⟩ := buildDict_value_key A pr.1 i hl
    rw [hA] at hr
    obtain rfl := Option.some.inj hr
    rw [hak] at hrk
    exact (Option.some.inj hrk).symm
  have hBinj : ∀ k' g, dictLookup (buildDoiDict B) k' = some g → g = jB → k' = k := by
    intro k' g hg hgj
    rw [hgj] at hg
    obtain ⟨r, hr, hrk⟩ := buildDict_value_key B k' jB hg
    rw [hB] at hr
    obtain rfl := Option.some.inj hr
    rw [hbk] at hrk
    exact (Option.some.inj hrk).symm
  obtain ⟨u1, u2, u3, u4, u5⟩ := doiPass_unique (buildDoiDict B) k i jB hlookB hBinj
    (buildDoiDict A) hmem hkeys hself
  exact titlePass_preserve_c5 simf B i jB A 0
    (doiPassGo (buildDoiDict B) (buildDoiDict A)) u1 u2 u3 u4 u5

end Tricho

namespace Tricho

/-- Collection A for the C5 counterexample: two records sharing one DOI. -/
def c5A : List ORec := [⟨some "d", none⟩, ⟨some "d", none⟩]

/-- Collection B for the C5 counterexample: one record with the same DOI. -/
def c5B : List ORec := [⟨some "d", none⟩]

/-- Claim C5 counterexample: the first record of A and the record of B share
the non-empty normalized DOI "d", yet the matcher reports NO match between
them — the dict comprehension keeps only the LAST index per DOI, so the
single reported match pairs A's second record with B's record.  The claim
asserted exactly one match for EVERY such pair. -/
theorem C5_counterexample :
    doiDictKey (⟨some "d", none⟩ : ORec) = some "d" ∧
    (find_overlaps (fun _ _ => (0 : ℚ)) c5A c5B).1 = [⟨.DOI, 1, 0, 1⟩] ∧
    (find_overlaps (fun _ _ => (0 : ℚ)) c5A c5B).1.countP
      (fun o => decide (o.sIdx = 0)) = 0 :=
  ⟨by decide, by decide, by decide⟩

/-- Witness for C5_overlap_doi_last: singleton collections whose DOIs agree
after lower-casing. -/
theorem C5_witness :
    ((find_overlaps (fun _ _ => (0 : ℚ)) [⟨some "10.1/A", none⟩]
        [⟨some "10.1/a", none⟩]).1.countP (fun o => decide (o.sIdx = 0)) = 1) ∧
    ((find_overlaps (fun _ _ => (0 : ℚ)) [⟨some "10.1/A", none⟩]
        [⟨some "10.1/a", none⟩]).1.countP (fun o => decide (o.gIdx = 0)) = 1) ∧
    (∀ o ∈ (find_overlaps (fun _ _ => (0 : ℚ)) [⟨some "10.1/A", none⟩]
        [⟨some "10.1/a", none⟩]).1, o.sIdx = 0 → o = ⟨.DOI, 0, 0, 1⟩) :=
  C5_overlap_doi_last (fun _ _ => (0 : ℚ)) [⟨some "10.1/A", none⟩]
    [⟨some "10.1/a", none⟩] 0 0 ⟨some "10.1/A", none⟩ ⟨some "10.1/a", none⟩ "10.1/a"
    rfl (by decide)
    (fun m r hm hget => by
      cases m with
      | zero => omega
      | succ n => simp [List.get?] at hget)
    rfl (by decide)
    (fun m r hm hget => by
      cases m with
      | zero => omega
      | succ n => simp [List.get?] at hget)

/-- Witness for C10_title_threshold: two singleton collections without DOIs
whose titles match with similarity 1 under a constant metric. -/
theorem C10_witness :
    ((⟨.Title, 0, 0, 1⟩ : Overlap) ∈
      (find_overlaps (fun _ _ => (1 : ℚ)) [⟨none, some "t"⟩] [⟨none, some "t"⟩]).1) ∧
    (0.85 : ℚ) < (1 : ℚ) ∧
    ((find_overlaps (fun _ _ => (1 : ℚ)) [⟨none, some "t"⟩] [⟨none, some "t"⟩]).1.countP
      (fun o => decide (o.gIdx = 0)) ≤ 1) := by
  have hbl : blankTitle (⟨none, some "t"⟩ : ORec) = false := by decide
  have heval : (find_overlaps (fun _ _ => (1 : ℚ)) [⟨none, some "t"⟩]
      [⟨none, some "t"⟩]).1 = [⟨.Title, 0, 0, 1⟩] := by
    norm_num [find_overlaps, buildDoiDict, bddGo, doiDictKey, doiPassGo, titlePassGo,
      bestCandGo, title_similarity, hbl]
  have hthm := C10_title_threshold (fun _ _ => (1 : ℚ)) [⟨none, some "t"⟩]
    [⟨none, some "t"⟩]
  have hmem : (⟨.Title, 0, 0, 1⟩ : Overlap) ∈
      (find_overlaps (fun _ _ => (1 : ℚ)) [⟨none, some "t"⟩] [⟨none, some "t"⟩]).1 := by
    rw [heval]
    exact List.mem_singleton_self _
  exact ⟨hmem, (hthm.1 _ hmem rfl).1, hthm.2 0⟩

end Tricho
